import Mathlib

/-!
Shallow embedding of the classic Memory Manager shim layer of mpw-emu
(`src/emulator/mac_memory.rs`): the guest-memory copy primitive
`block_move_data`, the composite handler `ptr_and_hand`, the stub handlers,
and the shim table built by `install_shims`, together with a model of the
heap operations the shims call.
-/

/-- Guest memory: the byte stored at each 32-bit address, `none` when the
address is unmapped (an access there raises an emulation fault). -/
abbrev Mem := Nat → Option Nat

/-- Faults surfaced to the host by the emulation layer: a bad guest-memory
access at some address, or a heap bookkeeping fault for an untracked
handle or pointer value. -/
inductive Fault where
  | badAccess (addr : Nat)
  | invalidHandle (handle : Nat)
deriving DecidableEq

/-- The modulus of 32-bit machine arithmetic, 2 ^ 32. -/
def U32MOD : Nat := 4294967296

/-- Unchecked `u32` addition as performed inside the shims (`src + i`,
`dest + i`, `current_size + size`): wraps modulo 2 ^ 32. -/
def u32add (a b : Nat) : Nat := (a + b) % U32MOD

/-- Read of one guest byte (`uc.read_u8`), faulting on an unmapped address. -/
def read_u8 (m : Mem) (a : Nat) : Except Fault Nat :=
  match m a with
  | some v => .ok v
  | none => .error (.badAccess a)

/-- Write of one guest byte (`uc.write_u8`), faulting on an unmapped address. -/
def write_u8 (m : Mem) (a v : Nat) : Except Fault Mem :=
  match m a with
  | some _ => .ok (fun x => if x = a then some (v % 256) else m x)
  | none => .error (.badAccess a)

/-- The ascending copy loop of `block_move_data` (and the append loop of
`ptr_and_hand`): `for i in 0..len { write_u8(dest + i, read_u8(src + i)?)? }`,
with `i` the current index and the second `Nat` argument the remaining
iteration count. -/
def fwdCopyLoop (src dest : Nat) : Nat → Nat → Mem → Except Fault Mem
  | _, 0, m => .ok m
  | i, fuel + 1, m =>
    match read_u8 m (u32add src i) with
    | .error f => .error f
    | .ok b =>
      match write_u8 m (u32add dest i) b with
      | .error f => .error f
      | .ok m1 => fwdCopyLoop src dest (i + 1) fuel m1

/-- The descending copy loop of `block_move_data`:
`for i in 0..len { let inv_i = len - 1 - i; write_u8(dest + inv_i, read_u8(src + inv_i)?)? }`. -/
def bwdCopyLoop (src dest len : Nat) : Nat → Nat → Mem → Except Fault Mem
  | _, 0, m => .ok m
  | i, fuel + 1, m =>
    match read_u8 m (u32add src (len - 1 - i)) with
    | .error f => .error f
    | .ok b =>
      match write_u8 m (u32add dest (len - 1 - i)) b with
      | .error f => .error f
      | .ok m1 => bwdCopyLoop src dest len (i + 1) fuel m1

/-- The `BlockMoveData` shim (`block_move_data` in `mac_memory.rs`): copies
ascending when `src < dest`, descending when `src > dest`, and does nothing
when `src = dest`. -/
def block_move_data (m : Mem) (src dest len : Nat) : Except Fault Mem :=
  if src < dest then fwdCopyLoop src dest 0 len m
  else if src > dest then bwdCopyLoop src dest len 0 len m
  else .ok m

/-- Sequential byte copy driven by an explicit list of indices, in list
order: used to state in which index order the two loops of
`block_move_data` traverse their ranges. -/
def copyIndices (src dest : Nat) : List Nat → Mem → Except Fault Mem
  | [], m => .ok m
  | i :: rest, m =>
    match read_u8 m (u32add src i) with
    | .error f => .error f
    | .ok b =>
      match write_u8 m (u32add dest i) b with
      | .error f => .error f
      | .ok m1 => copyIndices src dest rest m1

/-- Variant of `copyIndices` whose address computations are exact natural
additions instead of wrapping `u32` additions; `block_move_data` refines it
whenever `src + len` and `dest + len` stay below 2 ^ 32. -/
def copyIndicesP (src dest : Nat) : List Nat → Mem → Except Fault Mem
  | [], m => .ok m
  | i :: rest, m =>
    match read_u8 m (src + i) with
    | .error f => .error f
    | .ok b =>
      match write_u8 m (dest + i) b with
      | .error f => .error f
      | .ok m1 => copyIndicesP src dest rest m1

/-- Observation helper: the byte at address `a` after a copy that returned
without a fault, `none` when the copy faulted. -/
def resultByte (r : Except Fault Mem) (a : Nat) : Option (Option Nat) :=
  match r with
  | .ok m => some (m a)
  | .error _ => none

/-- A 30-byte guest buffer holding `byte[a] = a`, unmapped elsewhere. -/
def mem30 : Mem := fun a => if a < 30 then some a else none

/-- A fully mapped guest memory holding zero everywhere. -/
def memFull : Mem := fun _ => some 0

theorem fwdCopyLoop_eq_copyIndices (src dest : Nat) :
    ∀ fuel i m, fwdCopyLoop src dest i fuel m
      = copyIndices src dest ((List.range fuel).map (fun k => k + i)) m := by
  intro fuel
  induction fuel with
  | zero => intro i m; simp [fwdCopyLoop, copyIndices]
  | succ n ih =>
    intro i m
    rw [List.range_succ_eq_map]
    simp only [List.map_cons, List.map_map]
    show fwdCopyLoop src dest i (n + 1) m = copyIndices src dest
      ((0 + i) :: (List.range n).map ((fun k => k + i) ∘ Nat.succ)) m
    have hcomp : ((fun k => k + i) ∘ Nat.succ) = (fun k => k + (i + 1)) := by
      funext k; simp [Function.comp]; omega
    rw [hcomp]
    simp only [fwdCopyLoop, copyIndices, Nat.zero_add]
    cases hr : read_u8 m (u32add src i) with
    | error f => simp [hr]
    | ok b =>
      simp only [hr]
      cases hw : write_u8 m (u32add dest i) b with
      | error f => simp [hw]
      | ok m1 =>
        simp only [hw]
        exact ih (i + 1) m1

theorem bwdCopyLoop_eq_copyIndices (src dest len : Nat) :
    ∀ fuel i m, i + fuel = len → bwdCopyLoop src dest len i fuel m
      = copyIndices src dest ((List.range fuel).reverse) m := by
  intro fuel
  induction fuel with
  | zero => intro i m _; simp [bwdCopyLoop, copyIndices]
  | succ n ih =>
    intro i m hlen
    have hinv : len - 1 - i = n := by omega
    rw [List.range_succ, List.reverse_append]
    simp only [List.reverse_cons, List.reverse_nil, List.nil_append, List.cons_append,
      List.singleton_append]
    show bwdCopyLoop src dest len i (n + 1) m
      = copyIndices src dest (n :: (List.range n).reverse) m
    simp only [bwdCopyLoop, copyIndices, hinv]
    cases hr : read_u8 m (u32add src n) with
    | error f => simp [hr]
    | ok b =>
      simp only [hr]
      cases hw : write_u8 m (u32add dest n) b with
      | error f => simp [hw]
      | ok m1 =>
        simp only [hw]
        exact ih (i + 1) m1 (by omega)

theorem block_move_data_ascending {src dest : Nat} (h : src < dest) (m : Mem) (len : Nat) :
    block_move_data m src dest len = copyIndices src dest (List.range len) m := by
  rw [block_move_data, if_pos h, fwdCopyLoop_eq_copyIndices]
  have : ((List.range len).map (fun k => k + 0)) = List.range len := by
    simp
  rw [this]

theorem block_move_data_descending {src dest : Nat} (h : dest < src) (m : Mem) (len : Nat) :
    block_move_data m src dest len = copyIndices src dest ((List.range len).reverse) m := by
  rw [block_move_data, if_neg (by omega), if_pos h,
    bwdCopyLoop_eq_copyIndices src dest len len 0 m (by omega)]

/-- Claim C5: a `block_move_data` call with `length = 0`, or with
`src = dest` (any length), performs no guest-memory writes and leaves every
byte of guest memory unchanged: it returns the memory it was given. -/
theorem block_move_data_noop (m : Mem) (src dest len : Nat)
    (h : len = 0 ∨ src = dest) : block_move_data m src dest len = .ok m := by
  rcases h with h | h
  · subst h
    rw [block_move_data]
    split
    · rfl
    · split
      · rfl
      · rfl
  · subst h
    rw [block_move_data, if_neg (by omega), if_neg (by omega)]

/-- Witness for claim C5 at `src = dest = 5`, `len = 3`. -/
theorem block_move_data_noop_witness :
    block_move_data memFull 5 5 3 = .ok memFull :=
  block_move_data_noop memFull 5 5 3 (Or.inr rfl)

/-- Claim C1 (failing-input evaluation): on the buffer with `byte[a] = a`,
`block_move_data (src := 10) (dest := 0) (length := 20)` leaves byte 20 at
destination index 0, not the byte 10 that the source range held there
before the call: the descending traversal chosen for `src > dest` rereads
already overwritten bytes of the overlap. -/
theorem block_move_data_overlap_bug :
    resultByte (block_move_data mem30 10 0 20) 0 = some (some 20) ∧
      resultByte (block_move_data mem30 10 0 20) 0 ≠ some (some 10) ∧
      mem30 10 = some 10 := by
  refine ⟨by decide, by decide, by decide⟩

/-- Claim C4: the copy primitive traverses indices in ascending order
(`0 .. len-1`) exactly when the destination address exceeds the source
address, in descending order (`len-1 .. 0`) exactly when the source address
exceeds the destination, and does not traverse at all when they are equal. -/
theorem block_move_data_traversal_order (m : Mem) (src dest len : Nat) :
    (src < dest →
      block_move_data m src dest len = copyIndices src dest (List.range len) m) ∧
    (dest < src →
      block_move_data m src dest len = copyIndices src dest ((List.range len).reverse) m) ∧
    (src = dest → block_move_data m src dest len = .ok m) := by
  refine ⟨fun h => block_move_data_ascending h m len,
    fun h => block_move_data_descending h m len, fun h => ?_⟩
  subst h
  rw [block_move_data, if_neg (by omega), if_neg (by omega)]

/-- Witness for claim C4 at `src = 0 < dest = 1`, `len = 2`. -/
theorem block_move_data_traversal_order_witness :
    block_move_data memFull 0 1 2 = copyIndices 0 1 (List.range 2) memFull :=
  (block_move_data_traversal_order memFull 0 1 2).1 (by decide)

theorem read_u8_of_some {m : Mem} {a v : Nat} (h : m a = some v) :
    read_u8 m a = .ok v := by
  rw [read_u8, h]

theorem read_u8_of_none {m : Mem} {a : Nat} (h : m a = none) :
    read_u8 m a = .error (.badAccess a) := by
  rw [read_u8, h]

theorem write_u8_of_some {m : Mem} {a w : Nat} (v : Nat) (h : m a = some w) :
    write_u8 m a v = .ok (fun x => if x = a then some (v % 256) else m x) := by
  rw [write_u8, h]

theorem write_u8_of_none {m : Mem} {a : Nat} (v : Nat) (h : m a = none) :
    write_u8 m a v = .error (.badAccess a) := by
  rw [write_u8, h]

theorem copyIndices_error_sound (src dest : Nat) :
    ∀ (L : List Nat) (m : Mem) (f : Fault),
      copyIndices src dest L m = .error f →
      ∃ i ∈ L, ∃ a, f = .badAccess a ∧ m a = none ∧
        (a = u32add src i ∨ a = u32add dest i) := by
  intro L
  induction L with
  | nil =>
    intro m f h
    rw [copyIndices] at h
    exact absurd h (by simp)
  | cons i rest ih =>
    intro m f h
    rw [copyIndices] at h
    cases hms : m (u32add src i) with
    | none =>
      rw [read_u8_of_none hms] at h
      simp only [] at h
      cases h
      exact ⟨i, List.mem_cons_self i rest, u32add src i, rfl, hms, Or.inl rfl⟩
    | some v =>
      rw [read_u8_of_some hms] at h
      simp only [] at h
      cases hmd : m (u32add dest i) with
      | none =>
        rw [write_u8_of_none v hmd] at h
        simp only [] at h
        cases h
        exact ⟨i, List.mem_cons_self i rest, u32add dest i, rfl, hmd, Or.inr rfl⟩
      | some w =>
        rw [write_u8_of_some v hmd] at h
        simp only [] at h
        obtain ⟨j, hj, a, hf, hnone, hor⟩ := ih _ f h
        refine ⟨j, List.mem_cons_of_mem i hj, a, hf, ?_, hor⟩
        have hx : (if a = u32add dest i then some (v % 256) else m a) = none := hnone
        by_cases hax : a = u32add dest i
        · rw [if_pos hax] at hx
          exact absurd hx (by simp)
        · rw [if_neg hax] at hx
          exact hx

theorem copyIndices_ok_of_mapped (src dest : Nat) :
    ∀ (L : List Nat) (m : Mem),
      (∀ i ∈ L, m (u32add src i) ≠ none ∧ m (u32add dest i) ≠ none) →
      ∃ m', copyIndices src dest L m = .ok m' := by
  intro L
  induction L with
  | nil => intro m _; exact ⟨m, rfl⟩
  | cons i rest ih =>
    intro m hm
    obtain ⟨hs, hd⟩ := hm i (List.mem_cons_self i rest)
    cases hms : m (u32add src i) with
    | none => exact absurd hms hs
    | some v =>
      cases hmd : m (u32add dest i) with
      | none => exact absurd hmd hd
      | some w =>
        have htr : ∀ j ∈ rest,
            (fun x => if x = u32add dest i then some (v % 256) else m x) (u32add src j) ≠ none ∧
            (fun x => if x = u32add dest i then some (v % 256) else m x) (u32add dest j) ≠ none := by
          intro j hj
          obtain ⟨hs', hd'⟩ := hm j (List.mem_cons_of_mem i hj)
          constructor
          · by_cases hx : u32add src j = u32add dest i
            · simp [hx]
            · simpa [hx] using hs'
          · by_cases hx : u32add dest j = u32add dest i
            · simp [hx]
            · simpa [hx] using hd'
        obtain ⟨m', hm'⟩ :=
          ih (fun x => if x = u32add dest i then some (v % 256) else m x) htr
        refine ⟨m', ?_⟩
        rw [copyIndices, read_u8_of_some hms]
        simp only []
        rw [write_u8_of_some v hmd]
        simp only []
        exact hm'

theorem copyIndices_error_complete (src dest : Nat) :
    ∀ (L : List Nat) (m : Mem),
      (∃ i ∈ L, m (u32add src i) = none ∨ m (u32add dest i) = none) →
      ∃ f, copyIndices src dest L m = .error f := by
  intro L
  induction L with
  | nil =>
    intro m h
    obtain ⟨i, hi, _⟩ := h
    exact absurd hi (List.not_mem_nil i)
  | cons i rest ih =>
    intro m h
    cases hms : m (u32add src i) with
    | none =>
      exact ⟨.badAccess (u32add src i), by rw [copyIndices, read_u8_of_none hms]⟩
    | some v =>
      cases hmd : m (u32add dest i) with
      | none =>
        refine ⟨.badAccess (u32add dest i), ?_⟩
        rw [copyIndices, read_u8_of_some hms]
        simp only []
        rw [write_u8_of_none v hmd]
      | some w =>
        obtain ⟨j, hj, hun⟩ := h
        rcases List.mem_cons.mp hj with hji | hjr
        · subst hji
          rcases hun with h1 | h1
          · rw [hms] at h1
            exact absurd h1 (by simp)
          · rw [hmd] at h1
            exact absurd h1 (by simp)
        · have htr : ∃ j ∈ rest,
              (fun x => if x = u32add dest i then some (v % 256) else m x) (u32add src j) = none ∨
              (fun x => if x = u32add dest i then some (v % 256) else m x) (u32add dest j) = none := by
            refine ⟨j, hjr, ?_⟩
            rcases hun with h1 | h1
            · left
              have hne : u32add src j ≠ u32add dest i := by
                intro he
                rw [he, hmd] at h1
                exact absurd h1 (by simp)
              simpa [hne] using h1
            · right
              have hne : u32add dest j ≠ u32add dest i := by
                intro he
                rw [he, hmd] at h1
                exact absurd h1 (by simp)
              simpa [hne] using h1
          obtain ⟨f, hf⟩ :=
            ih (fun x => if x = u32add dest i then some (v % 256) else m x) htr
          refine ⟨f, ?_⟩
          rw [copyIndices, read_u8_of_some hms]
          simp only []
          rw [write_u8_of_some v hmd]
          simp only []
          exact hf

theorem copyIndices_eq_copyIndicesP (src dest : Nat) :
    ∀ (L : List Nat) (m : Mem),
      (∀ i ∈ L, src + i < U32MOD ∧ dest + i < U32MOD) →
      copyIndices src dest L m = copyIndicesP src dest L m := by
  intro L
  induction L with
  | nil => intro m _; rfl
  | cons i rest ih =>
    intro m hb
    obtain ⟨hbs, hbd⟩ := hb i (List.mem_cons_self i rest)
    have hs : u32add src i = src + i := by
      rw [u32add]; exact Nat.mod_eq_of_lt hbs
    have hd : u32add dest i = dest + i := by
      rw [u32add]; exact Nat.mod_eq_of_lt hbd
    rw [copyIndices, copyIndicesP, hs, hd]
    cases hr : read_u8 m (src + i) with
    | error f => simp [hr]
    | ok b =>
      simp only [hr]
      cases hw : write_u8 m (dest + i) b with
      | error f => simp [hw]
      | ok m1 =>
        simp only [hw]
        exact ih m1 (fun j hj => hb j (List.mem_cons_of_mem i hj))

theorem copyIndicesP_append (src dest : Nat) :
    ∀ (L1 L2 : List Nat) (m : Mem),
      copyIndicesP src dest (L1 ++ L2) m =
        match copyIndicesP src dest L1 m with
        | .error f => .error f
        | .ok m1 => copyIndicesP src dest L2 m1 := by
  intro L1
  induction L1 with
  | nil => intro L2 m; rfl
  | cons i rest ih =>
    intro L2 m
    rw [List.cons_append, copyIndicesP]
    show _ = match copyIndicesP src dest (i :: rest) m with
      | .error f => .error f
      | .ok m1 => copyIndicesP src dest L2 m1
    rw [copyIndicesP]
    cases hr : read_u8 m (src + i) with
    | error f => simp [hr]
    | ok b =>
      simp only [hr]
      cases hw : write_u8 m (dest + i) b with
      | error f => simp [hw]
      | ok m1 =>
        simp only [hw]
        exact ih L2 m1

theorem copyIndicesP_range_spec (src dest : Nat) :
    ∀ (len : Nat) (m : Mem),
      (∀ i, i < len → m (src + i) ≠ none ∧ m (dest + i) ≠ none) →
      (∀ a v, m a = some v → v < 256) →
      (∀ i j, i < len → j < len → src + i ≠ dest + j) →
      ∃ m', copyIndicesP src dest (List.range len) m = .ok m' ∧
        (∀ i, i < len → m' (dest + i) = m (src + i)) ∧
        (∀ a, (∀ i, i < len → a ≠ dest + i) → m' a = m a) := by
  intro len
  induction len with
  | zero =>
    intro m _ _ _
    exact ⟨m, rfl, fun i hi => absurd hi (by omega), fun a _ => rfl⟩
  | succ n ih =>
    intro m hm hwf hdisj
    obtain ⟨m', hok, hcopy, hframe⟩ := ih m (fun i hi => hm i (by omega)) hwf
      (fun i j hi hj => hdisj i j (by omega) (by omega))
    have hsrc_pres : m' (src + n) = m (src + n) :=
      hframe (src + n) (fun i hi => hdisj n i (by omega) (by omega))
    have hdest_pres : m' (dest + n) = m (dest + n) :=
      hframe (dest + n) (fun i hi => by
        have : i ≠ n := by omega
        intro he
        exact this (by omega))
    obtain ⟨v, hsv⟩ : ∃ v, m (src + n) = some v := by
      cases hx : m (src + n) with
      | none => exact absurd hx (hm n (by omega)).1
      | some v => exact ⟨v, rfl⟩
    obtain ⟨w, hdw⟩ : ∃ w, m (dest + n) = some w := by
      cases hx : m (dest + n) with
      | none => exact absurd hx (hm n (by omega)).2
      | some w => exact ⟨w, rfl⟩
    have hsv' : m' (src + n) = some v := by rw [hsrc_pres, hsv]
    have hdw' : m' (dest + n) = some w := by rw [hdest_pres, hdw]
    have hv256 : v % 256 = v := Nat.mod_eq_of_lt (hwf _ _ hsv)
    refine ⟨fun x => if x = dest + n then some (v % 256) else m' x, ?_, ?_, ?_⟩
    · rw [List.range_succ, copyIndicesP_append, hok]
      simp only []
      rw [copyIndicesP, read_u8_of_some hsv']
      simp only []
      rw [write_u8_of_some v hdw']
      simp only []
      rw [copyIndicesP]
    · intro i hi
      by_cases hin : i = n
      · subst hin
        simp [hv256, hsv]
      · have hne : dest + i ≠ dest + n := by omega
        simp only [if_neg hne]
        exact hcopy i (by omega)
    · intro a ha
      have hne : a ≠ dest + n := ha n (by omega)
      simp only [if_neg hne]
      exact hframe a (fun i hi => ha i (by omega))

/-- A live allocation record: the data block's base address and its size in
bytes.  The heap's table is keyed by the guest-visible value: the master
pointer cell's address for a handle, the base address itself for a fixed
pointer block. -/
structure Block where
  base : Nat
  size : Nat
deriving DecidableEq

/-- The heap's table of live allocations, keyed by handle or pointer value;
`none` for values the heap does not track. -/
abbrev Heap := Nat → Option Block

/-- Unconditional byte store used inside the heap model: the heap only
writes to addresses it owns. -/
def writeByteP (m : Mem) (a v : Nat) : Mem :=
  fun x => if x = a then some (v % 256) else m x

/-- Big-endian store of a 32-bit value at addresses `a .. a+3`, used by the
heap model to keep a master pointer cell holding its block's current base
address. -/
def write_u32_cell (m : Mem) (a v : Nat) : Mem :=
  writeByteP
    (writeByteP (writeByteP (writeByteP m a (v / 16777216)) (a + 1) (v / 65536))
      (a + 2) (v / 256))
    (a + 3) v

/-- Bulk byte copy used by the heap model when a resized block relocates:
addresses `dest .. dest+n-1` take the bytes previously held at
`src .. src+n-1`, all other addresses keep their bytes. -/
def memCopy (m : Mem) (src dest n : Nat) : Mem :=
  fun a => if dest ≤ a ∧ a < dest + n then m (src + (a - dest)) else m a

/-- Big-endian read of a 32-bit guest value (`uc.read_u32`), faulting on an
unmapped byte. -/
def read_u32 (m : Mem) (a : Nat) : Except Fault Nat :=
  match read_u8 m a with
  | .error f => .error f
  | .ok b0 =>
    match read_u8 m (u32add a 1) with
    | .error f => .error f
    | .ok b1 =>
      match read_u8 m (u32add a 2) with
      | .error f => .error f
      | .ok b2 =>
        match read_u8 m (u32add a 3) with
        | .error f => .error f
        | .ok b3 =>
          .ok ((b0 % 256) * 16777216 + (b1 % 256) * 65536 + (b2 % 256) * 256 + b3 % 256)

/-- Modelled from the spec: `OSErr::NotEnoughMemory.to_u32()` (the `OSErr`
enumeration lives in `src/common.rs`, outside the specified slice).  The
spec requires a nonzero status code matching the corresponding classic
error; the classic insufficient-memory error is -108, i.e. 4294967188 as
an unsigned 32-bit value. -/
def OSErr.notEnoughMemory : Nat := 4294967188

/-- Modelled from the spec: the Heap's `get_handle_size` (the `Heap` type
lives in `src/emulator/heap.rs`, outside the specified slice) returns the
current size of the handle's data block; an untracked handle is an
internal-consistency fault. -/
def Heap.get_handle_size (heap : Heap) (handle : Nat) : Except Fault Nat :=
  match heap handle with
  | some b => .ok b.size
  | none => .error (.invalidHandle handle)

/-- Modelled from the spec: the Heap's `set_handle_size` (outside the
specified slice) resizes a movable block, possibly relocating it —
allocate elsewhere, copy the surviving bytes, update the master pointer
cell — and returns `true`; it returns `false` mutating nothing when no
placement satisfies the request.  The placement policy is unconstrained by
the spec, so it is a parameter: `place` yields the chosen new base address
(the old base for an in-place resize), or `none` for failure. -/
def Heap.set_handle_size (place : Heap → Nat → Nat → Option Nat) (heap : Heap)
    (m : Mem) (handle newSize : Nat) : Except Fault (Bool × Heap × Mem) :=
  match heap handle with
  | none => .error (.invalidHandle handle)
  | some b =>
    match place heap handle newSize with
    | none => .ok (false, heap, m)
    | some newBase =>
      .ok (true, fun h => if h = handle then some ⟨newBase, newSize⟩ else heap h,
        write_u32_cell (memCopy m b.base newBase (min b.size newSize)) handle newBase)

/-- Modelled from the spec: the Heap's `set_ptr_size` (outside the
specified slice) resizes a fixed block in place and reports success, or
fails leaving size and contents untouched when the block cannot grow in
place; whether a given resize fits is unconstrained here, so it is the
parameter `fits`. -/
def Heap.set_ptr_size (fits : Heap → Nat → Nat → Bool) (heap : Heap) (m : Mem)
    (ptr newSize : Nat) : Except Fault (Bool × Heap × Mem) :=
  match heap ptr with
  | none => .error (.invalidHandle ptr)
  | some b =>
    if fits heap ptr newSize then
      .ok (true, fun p => if p = ptr then some ⟨b.base, newSize⟩ else heap p, m)
    else .ok (false, heap, m)

/-- The `SetPtrSize` shim (`set_ptr_size` in `mac_memory.rs`): calls the
heap's `set_ptr_size` with `?`, discards its payload, and returns
`Ok(None)` — no value is placed in the emulated return slot. -/
def set_ptr_size (fits : Heap → Nat → Nat → Bool) (heap : Heap) (m : Mem)
    (ptr newSize : Nat) : Except Fault (Option Nat × Heap × Mem) :=
  match Heap.set_ptr_size fits heap m ptr newSize with
  | .error f => .error f
  | .ok (_, heap1, m1) => .ok (none, heap1, m1)

/-- The `SetHandleSize` shim (`set_handle_size` in `mac_memory.rs`): calls
the heap's `set_handle_size` with `?`, discards the boolean success flag,
and returns `Ok(None)` — no value is placed in the emulated return slot. -/
def set_handle_size (place : Heap → Nat → Nat → Option Nat) (heap : Heap)
    (m : Mem) (handle newSize : Nat) : Except Fault (Option Nat × Heap × Mem) :=
  match Heap.set_handle_size place heap m handle newSize with
  | .error f => .error f
  | .ok (_, heap1, m1) => .ok (none, heap1, m1)

/-- The `PtrAndHand` shim (`ptr_and_hand` in `mac_memory.rs`): reads the
handle's current size, grows the handle by `size` via the heap's
`set_handle_size`, and on success copies `size` bytes from `ptr` into the
freed tail (at the cell's current base plus the old size), returning 0;
on resize failure it returns the `NotEnoughMemory` status code. -/
def ptr_and_hand (place : Heap → Nat → Nat → Option Nat) (heap : Heap)
    (m : Mem) (ptr handle size : Nat) : Except Fault (Option Nat × Heap × Mem) :=
  match Heap.get_handle_size heap handle with
  | .error f => .error f
  | .ok current_size =>
    match Heap.set_handle_size place heap m handle (u32add current_size size) with
    | .error f => .error f
    | .ok (true, heap1, m1) =>
      match read_u32 m1 handle with
      | .error f => .error f
      | .ok cellVal =>
        match fwdCopyLoop ptr (u32add cellVal current_size) 0 size m1 with
        | .error f => .error f
        | .ok m2 => .ok (some 0, heap1, m2)
    | .ok (false, heap1, m1) => .ok (some OSErr.notEnoughMemory, heap1, m1)

/-- The `stub_return_void` handler in `mac_memory.rs`: ignores its
arguments and returns `Ok(None)`, touching neither the heap nor guest
memory. -/
def stub_return_void (heap : Heap) (m : Mem) (_args : List Nat) :
    Except Fault (Option Nat × Heap × Mem) :=
  .ok (none, heap, m)

/-- The `h_get_state` handler in `mac_memory.rs`: ignores its arguments and
returns `Ok(Some(0))`, touching neither the heap nor guest memory. -/
def h_get_state (heap : Heap) (m : Mem) (_args : List Nat) :
    Except Fault (Option Nat × Heap × Mem) :=
  .ok (some 0, heap, m)

/-- Observation helper: the value placed in the emulated return slot by a
shim handler that completed without a host fault. -/
def retSlot (r : Except Fault (Option Nat × Heap × Mem)) : Option (Option Nat) :=
  match r with
  | .ok (v, _, _) => some v
  | .error _ => none

/-- The distinct handler functions of `mac_memory.rs`, as registered by
`install_shims`; two table entries naming the same constructor are backed
by the same Rust function item. -/
inductive ShimFn where
  | new_handle
  | new_ptr
  | dispose_ptr
  | get_ptr_size
  | set_ptr_size
  | dispose_handle
  | get_handle_size
  | set_handle_size
  | block_move_data
  | h_get_state
  | ptr_and_hand
  | stub_return_void
deriving DecidableEq

/-- The shim table built once by `install_shims`, in registration order:
each emulated API name with the handler function registered for it. -/
def install_shims : List (String × ShimFn) :=
  [("NewHandle", .new_handle),
   ("NewHandleClear", .new_handle),
   ("NewPtr", .new_ptr),
   ("NewPtrClear", .new_ptr),
   ("HLock", .stub_return_void),
   ("HUnlock", .stub_return_void),
   ("HLockHi", .stub_return_void),
   ("MoveHHi", .stub_return_void),
   ("DisposePtr", .dispose_ptr),
   ("GetPtrSize", .get_ptr_size),
   ("SetPtrSize", .set_ptr_size),
   ("DisposeHandle", .dispose_handle),
   ("GetHandleSize", .get_handle_size),
   ("SetHandleSize", .set_handle_size),
   ("BlockMoveData", .block_move_data),
   ("HGetState", .h_get_state),
   ("HSetState", .stub_return_void),
   ("PtrAndHand", .ptr_and_hand)]

/-- Claim C8: the stubbed legacy APIs `HLock`, `HUnlock`, `HLockHi`,
`MoveHHi` and `HSetState` are all registered to `stub_return_void`, which
produces no return value and leaves the heap and every byte of guest
memory unchanged for every argument and state; `HGetState` is registered
to `h_get_state`, which returns the fixed sentinel 0 and also leaves all
state unchanged. -/
theorem stub_handlers_are_noops :
    install_shims.lookup ("HLock") = some ShimFn.stub_return_void ∧
    install_shims.lookup ("HUnlock") = some ShimFn.stub_return_void ∧
    install_shims.lookup ("HLockHi") = some ShimFn.stub_return_void ∧
    install_shims.lookup ("MoveHHi") = some ShimFn.stub_return_void ∧
    install_shims.lookup ("HSetState") = some ShimFn.stub_return_void ∧
    install_shims.lookup ("HGetState") = some ShimFn.h_get_state ∧
    (∀ (heap : Heap) (m : Mem) (args : List Nat),
      stub_return_void heap m args = .ok (none, heap, m)) ∧
    (∀ (heap : Heap) (m : Mem) (args : List Nat),
      h_get_state heap m args = .ok (some 0, heap, m)) := by
  refine ⟨by decide, by decide, by decide, by decide, by decide, by decide,
    fun heap m args => rfl, fun heap m args => rfl⟩

/-- Claim C7 counterexample: the shim table maps the two distinct API names
`NewHandle` and `NewHandleClear` to the same handler `new_handle`, so it is
false that each handler serves exactly one API name. -/
theorem install_shims_not_injective :
    ("NewHandle", ShimFn.new_handle) ∈ install_shims ∧
    ("NewHandleClear", ShimFn.new_handle) ∈ install_shims ∧
    "NewHandle" ≠ "NewHandleClear" := by
  refine ⟨by decide, by decide, by decide⟩

/-- Claim C7 as amended: every API name registered by `install_shims` is
distinct, so the table is a well-defined map from name to handler, but the
map is not injective: `new_handle` serves two names (NewHandle,
NewHandleClear), `new_ptr` serves two (NewPtr, NewPtrClear),
`stub_return_void` serves five (HLock, HUnlock, HLockHi, MoveHHi,
HSetState), and each remaining handler serves exactly one name. -/
theorem install_shims_names_nodup :
    (install_shims.map Prod.fst).Nodup ∧
    install_shims.length = 18 ∧
    (install_shims.map Prod.snd).count ShimFn.new_handle = 2 ∧
    (install_shims.map Prod.snd).count ShimFn.new_ptr = 2 ∧
    (install_shims.map Prod.snd).count ShimFn.stub_return_void = 5 ∧
    (install_shims.map Prod.snd).count ShimFn.dispose_ptr = 1 ∧
    (install_shims.map Prod.snd).count ShimFn.get_ptr_size = 1 ∧
    (install_shims.map Prod.snd).count ShimFn.set_ptr_size = 1 ∧
    (install_shims.map Prod.snd).count ShimFn.dispose_handle = 1 ∧
    (install_shims.map Prod.snd).count ShimFn.get_handle_size = 1 ∧
    (install_shims.map Prod.snd).count ShimFn.set_handle_size = 1 ∧
    (install_shims.map Prod.snd).count ShimFn.block_move_data = 1 ∧
    (install_shims.map Prod.snd).count ShimFn.h_get_state = 1 ∧
    (install_shims.map Prod.snd).count ShimFn.ptr_and_hand = 1 := by
  refine ⟨by decide, by decide, by decide, by decide, by decide, by decide, by decide,
    by decide, by decide, by decide, by decide, by decide, by decide, by decide⟩

/-- A heap tracking one movable block: handle 100, data at base 0, size 4. -/
def heap100 : Heap := fun h => if h = 100 then some ⟨0, 4⟩ else none

/-- A placement policy that always places blocks at base 40. -/
def placeTo40 : Heap → Nat → Nat → Option Nat := fun _ _ _ => some 40

/-- A placement policy with no room anywhere: every resize fails. -/
def placeFail : Heap → Nat → Nat → Option Nat := fun _ _ _ => none

/-- A fit policy under which every fixed-block resize succeeds in place. -/
def fitsAlways : Heap → Nat → Nat → Bool := fun _ _ _ => true

/-- A fully mapped guest memory holding `a % 256` at address `a`. -/
def memBytes : Mem := fun a => some (a % 256)

/-- Claim C6 counterexample: a successful `SetHandleSize` shim call (and a
successful `SetPtrSize` shim call) places no value at all in the emulated
return slot — not 0 and not boolean true — because the shims discard the
heap's success flag and return `Ok(None)`. -/
theorem size_setters_return_no_value :
    retSlot (set_handle_size placeTo40 heap100 memBytes 100 8) = some none ∧
    retSlot (set_ptr_size fitsAlways heap100 memBytes 100 8) = some none ∧
    (some (none : Option Nat) : Option (Option Nat)) ≠ some (some 0) := by
  refine ⟨rfl, rfl, by decide⟩

/-- Claim C6 as amended: the size-setter shim handlers are void — for every
policy, heap, memory and arguments they either propagate a host fault or
complete with an empty emulated return slot; the boolean success flag
exists only at the internal heap level and is discarded by these shims. -/
theorem size_setter_shims_are_void (fits : Heap → Nat → Nat → Bool)
    (place : Heap → Nat → Nat → Option Nat) (heap : Heap) (m : Mem)
    (p h ns1 ns2 : Nat) :
    (retSlot (set_ptr_size fits heap m p ns1) = some none ∨
      retSlot (set_ptr_size fits heap m p ns1) = none) ∧
    (retSlot (set_handle_size place heap m h ns2) = some none ∨
      retSlot (set_handle_size place heap m h ns2) = none) := by
  constructor
  · cases hp : heap p with
    | none => right; simp [retSlot, set_ptr_size, Heap.set_ptr_size, hp]
    | some b =>
      cases hf : fits heap p ns1 with
      | false => left; simp [retSlot, set_ptr_size, Heap.set_ptr_size, hp, hf]
      | true => left; simp [retSlot, set_ptr_size, Heap.set_ptr_size, hp, hf]
  · cases hp : heap h with
    | none => right; simp [retSlot, set_handle_size, Heap.set_handle_size, hp]
    | some b =>
      cases hpl : place heap h ns2 with
      | none => left; simp [retSlot, set_handle_size, Heap.set_handle_size, hp, hpl]
      | some nb => left; simp [retSlot, set_handle_size, Heap.set_handle_size, hp, hpl]

/-- Claim C3: when the heap's `set_handle_size` reports failure (no
placement anywhere), `ptr_and_hand` performs no guest-memory writes — it
returns exactly the heap and memory it was given — and completes normally
with the nonzero `NotEnoughMemory` status code in the return slot rather
than a host fault. -/
theorem ptr_and_hand_failure_no_writes (place : Heap → Nat → Nat → Option Nat)
    (heap : Heap) (m : Mem) (ptr handle size : Nat) (b : Block)
    (hblk : heap handle = some b)
    (hplace : place heap handle (u32add b.size size) = none) :
    ptr_and_hand place heap m ptr handle size =
      .ok (some OSErr.notEnoughMemory, heap, m) ∧
    OSErr.notEnoughMemory ≠ 0 := by
  constructor
  · rw [ptr_and_hand, Heap.get_handle_size, hblk]
    simp only []
    rw [Heap.set_handle_size, hblk]
    simp only []
    rw [hplace]
  · decide

/-- Witness for claim C3: a handle of size 4 with no room to grow anywhere
yields the failure status with heap and memory untouched. -/
theorem ptr_and_hand_failure_no_writes_witness :
    ptr_and_hand placeFail heap100 memBytes 70 100 3 =
      .ok (some OSErr.notEnoughMemory, heap100, memBytes) ∧
    OSErr.notEnoughMemory ≠ 0 :=
  ptr_and_hand_failure_no_writes placeFail heap100 memBytes 70 100 3 ⟨0, 4⟩ rfl rfl

theorem writeByteP_ne (m : Mem) (a v x : Nat) (h : x ≠ a) :
    writeByteP m a v x = m x := if_neg h

theorem writeByteP_eq (m : Mem) (a v : Nat) :
    writeByteP m a v a = some (v % 256) := if_pos rfl

theorem write_u32_cell_frame (m : Mem) (a v x : Nat)
    (h : ∀ k, k < 4 → x ≠ a + k) : write_u32_cell m a v x = m x := by
  rw [write_u32_cell,
    writeByteP_ne _ _ _ _ (h 3 (by omega)),
    writeByteP_ne _ _ _ _ (h 2 (by omega)),
    writeByteP_ne _ _ _ _ (h 1 (by omega))]
  exact writeByteP_ne _ _ _ _ (by have := h 0 (by omega); omega)

theorem memCopy_frame (m : Mem) (s d n x : Nat)
    (h : ∀ j, j < n → x ≠ d + j) : memCopy m s d n x = m x := by
  rw [memCopy]
  have : ¬(d ≤ x ∧ x < d + n) := by
    rintro ⟨h1, h2⟩
    exact h (x - d) (by omega) (by omega)
  rw [if_neg this]

theorem memCopy_in (m : Mem) (s d n i : Nat) (hi : i < n) :
    memCopy m s d n (d + i) = m (s + i) := by
  rw [memCopy, if_pos (by omega : d ≤ d + i ∧ d + i < d + n)]
  have : d + i - d = i := by omega
  rw [this]

theorem wf_writeByteP (m : Mem) (a v : Nat)
    (hwf : ∀ x w, m x = some w → w < 256) :
    ∀ x w, writeByteP m a v x = some w → w < 256 := by
  intro x w h
  rw [writeByteP] at h
  by_cases hx : x = a
  · rw [if_pos hx] at h
    have : w = v % 256 := by
      injection h with h
      omega
    omega
  · rw [if_neg hx] at h
    exact hwf x w h

theorem wf_memCopy (m : Mem) (s d n : Nat)
    (hwf : ∀ x w, m x = some w → w < 256) :
    ∀ x w, memCopy m s d n x = some w → w < 256 := by
  intro x w h
  rw [memCopy] at h
  by_cases hx : d ≤ x ∧ x < d + n
  · rw [if_pos hx] at h
    exact hwf _ w h
  · rw [if_neg hx] at h
    exact hwf x w h

theorem wf_write_u32_cell (m : Mem) (a v : Nat)
    (hwf : ∀ x w, m x = some w → w < 256) :
    ∀ x w, write_u32_cell m a v x = some w → w < 256 := by
  rw [write_u32_cell]
  exact wf_writeByteP _ _ _ (wf_writeByteP _ _ _ (wf_writeByteP _ _ _
    (wf_writeByteP _ _ _ hwf)))

theorem read_u32_write_u32_cell (m : Mem) (a v : Nat)
    (ha : a + 4 < U32MOD) (hv : v < U32MOD) :
    read_u32 (write_u32_cell m a v) a = .ok v := by
  have hv' : v < 4294967296 := hv
  have h0 : write_u32_cell m a v a = some (v / 16777216 % 256) := by
    rw [write_u32_cell,
      writeByteP_ne _ _ _ _ (by omega : a ≠ a + 3),
      writeByteP_ne _ _ _ _ (by omega : a ≠ a + 2),
      writeByteP_ne _ _ _ _ (by omega : a ≠ a + 1)]
    exact writeByteP_eq _ _ _
  have h1 : write_u32_cell m a v (a + 1) = some (v / 65536 % 256) := by
    rw [write_u32_cell,
      writeByteP_ne _ _ _ _ (by omega : a + 1 ≠ a + 3),
      writeByteP_ne _ _ _ _ (by omega : a + 1 ≠ a + 2)]
    exact writeByteP_eq _ _ _
  have h2 : write_u32_cell m a v (a + 2) = some (v / 256 % 256) := by
    rw [write_u32_cell,
      writeByteP_ne _ _ _ _ (by omega : a + 2 ≠ a + 3)]
    exact writeByteP_eq _ _ _
  have h3 : write_u32_cell m a v (a + 3) = some (v % 256) := by
    rw [write_u32_cell]
    exact writeByteP_eq _ _ _
  have hu1 : u32add a 1 = a + 1 := by
    rw [u32add]; exact Nat.mod_eq_of_lt (by omega)
  have hu2 : u32add a 2 = a + 2 := by
    rw [u32add]; exact Nat.mod_eq_of_lt (by omega)
  have hu3 : u32add a 3 = a + 3 := by
    rw [u32add]; exact Nat.mod_eq_of_lt (by omega)
  rw [read_u32, hu1, hu2, hu3, read_u8_of_some h0]
  simp only []
  rw [read_u8_of_some h1]
  simp only []
  rw [read_u8_of_some h2]
  simp only []
  rw [read_u8_of_some h3]
  simp only []
  have harith : v / 16777216 % 256 % 256 * 16777216 + v / 65536 % 256 % 256 * 65536 +
      v / 256 % 256 % 256 * 256 + v % 256 % 256 = v := by
    omega
  rw [harith]

/-- Claim C2: for a handle whose data block has size `n`, a
`PtrAndHand(ptr, handle, msize)` call whose resize succeeds (placing the
block at `newBase`, possibly relocated) ends with the handle's recorded
size equal to `n + msize`, with bytes `[n, n+msize)` at the block's current
base equal to the `msize` bytes read from `ptr`, with bytes `[0, n)` of the
block holding the bytes the block held before the call, and with a
guest-visible return value of 0.  The range-disjointness and
no-overflow side conditions make the involved ranges well-formed and
non-aliasing. -/
theorem ptr_and_hand_success (place : Heap → Nat → Nat → Option Nat)
    (heap : Heap) (m : Mem) (ptr handle msize base n newBase : Nat)
    (hblk : heap handle = some ⟨base, n⟩)
    (hplace : place heap handle (n + msize) = some newBase)
    (hn : n + msize < U32MOD)
    (hptr : ptr + msize < U32MOD)
    (hnb : newBase + n + msize < U32MOD)
    (hcell : handle + 4 < U32MOD)
    (hwf : ∀ a v, m a = some v → v < 256)
    (hm1 : ∀ i, i < msize → m (ptr + i) ≠ none)
    (hm2 : ∀ i, i < msize → m (newBase + n + i) ≠ none)
    (hd1 : ∀ i j, i < msize → j < msize → ptr + i ≠ newBase + n + j)
    (hd2 : ∀ i k, i < msize → k < 4 → newBase + n + i ≠ handle + k)
    (hd3 : ∀ i k, i < n → k < 4 → newBase + i ≠ handle + k)
    (hd4 : ∀ i k, i < msize → k < 4 → ptr + i ≠ handle + k)
    (hd5 : ∀ i j, i < msize → j < n → ptr + i ≠ newBase + j) :
    ∃ heap1 mF, ptr_and_hand place heap m ptr handle msize =
        .ok (some 0, heap1, mF) ∧
      heap1 handle = some ⟨newBase, n + msize⟩ ∧
      (∀ i, i < msize → mF (newBase + n + i) = m (ptr + i)) ∧
      (∀ i, i < n → mF (newBase + i) = m (base + i)) := by
  have hadd : u32add n msize = n + msize := by
    rw [u32add]; exact Nat.mod_eq_of_lt hn
  have hmin : min n (n + msize) = n := min_eq_left (by omega)
  have hm2ptr : ∀ i, i < msize →
      write_u32_cell (memCopy m base newBase n) handle newBase (ptr + i) =
        m (ptr + i) := by
    intro i hi
    rw [write_u32_cell_frame _ _ _ _ (fun k hk => hd4 i k hi hk)]
    exact memCopy_frame _ _ _ _ _ (fun j hj => hd5 i j hi hj)
  have hm2dest : ∀ i, i < msize →
      write_u32_cell (memCopy m base newBase n) handle newBase (newBase + n + i) =
        m (newBase + n + i) := by
    intro i hi
    rw [write_u32_cell_frame _ _ _ _ (fun k hk => hd2 i k hi hk)]
    exact memCopy_frame _ _ _ _ _ (fun j hj => by omega)
  have hwf2 : ∀ a v,
      write_u32_cell (memCopy m base newBase n) handle newBase a = some v →
        v < 256 :=
    wf_write_u32_cell _ _ _ (wf_memCopy _ _ _ _ hwf)
  have hmap2 : ∀ i, i < msize →
      write_u32_cell (memCopy m base newBase n) handle newBase (ptr + i) ≠ none ∧
      write_u32_cell (memCopy m base newBase n) handle newBase (newBase + n + i) ≠ none := by
    intro i hi
    constructor
    · rw [hm2ptr i hi]; exact hm1 i hi
    · rw [hm2dest i hi]; exact hm2 i hi
  obtain ⟨mF, hok, hcopy, hframe⟩ :=
    copyIndicesP_range_spec ptr (newBase + n) msize
      (write_u32_cell (memCopy m base newBase n) handle newBase)
      hmap2 hwf2 (fun i j hi hj => hd1 i j hi hj)
  refine ⟨fun h => if h = handle then some ⟨newBase, n + msize⟩ else heap h, mF,
    ?_, ?_, ?_, ?_⟩
  · rw [ptr_and_hand, Heap.get_handle_size, hblk]
    simp only []
    rw [Heap.set_handle_size, hblk]
    simp only []
    rw [hadd, hplace]
    simp only []
    rw [hmin]
    rw [read_u32_write_u32_cell _ _ _ hcell (by omega)]
    simp only []
    have hadd2 : u32add newBase n = newBase + n := by
      rw [u32add]; exact Nat.mod_eq_of_lt (by omega)
    rw [hadd2, fwdCopyLoop_eq_copyIndices]
    have hmap0 : ((List.range msize).map (fun k => k + 0)) = List.range msize := by
      simp
    rw [hmap0]
    rw [copyIndices_eq_copyIndicesP ptr (newBase + n) (List.range msize) _
      (fun i hi => by
        have := List.mem_range.mp hi
        exact ⟨by omega, by omega⟩)]
    rw [hok]
  · simp
  · intro i hi
    rw [hcopy i hi]
    exact hm2ptr i hi
  · intro i hi
    rw [hframe _ (fun j hj => by omega)]
    rw [write_u32_cell_frame _ _ _ _ (fun k hk => hd3 i k hi hk)]
    exact memCopy_in _ _ _ _ _ hi

/-- Witness for claim C2: a handle of size 4 (base 0) relocated to base 40
and grown by 3, appending the bytes at addresses 70..72; the appended tail
and the preserved prefix are both checked. -/
theorem ptr_and_hand_success_witness :
    ∃ heap1 mF, ptr_and_hand placeTo40 heap100 memBytes 70 100 3 =
        .ok (some 0, heap1, mF) ∧
      heap1 100 = some ⟨40, 4 + 3⟩ ∧
      (∀ i, i < 3 → mF (40 + 4 + i) = memBytes (70 + i)) ∧
      (∀ i, i < 4 → mF (40 + i) = memBytes (0 + i)) :=
  ptr_and_hand_success placeTo40 heap100 memBytes 70 100 3 0 4 40 rfl rfl
    (by decide) (by decide) (by decide) (by decide)
    (fun a v h => by
      simp [memBytes] at h
      omega)
    (by decide) (by decide)
    (fun i j hi hj => by omega) (fun i k hi hk => by omega)
    (fun i k hi hk => by omega) (fun i k hi hk => by omega)
    (fun i j hi hj => by omega)

theorem read_u8_error_shape {m : Mem} {a : Nat} {f : Fault}
    (h : read_u8 m a = .error f) : f = .badAccess a := by
  rw [read_u8] at h
  cases hm : m a with
  | some v =>
    rw [hm] at h
    exact absurd h (by simp)
  | none =>
    rw [hm] at h
    simp only [] at h
    injection h with h
    exact h.symm

theorem read_u32_error_shape {m : Mem} {a : Nat} {f : Fault}
    (h : read_u32 m a = .error f) : ∃ x, f = .badAccess x := by
  rw [read_u32] at h
  cases h0 : read_u8 m a with
  | error f0 =>
    rw [h0] at h
    simp only [] at h
    injection h with h
    subst h
    exact ⟨a, read_u8_error_shape h0⟩
  | ok b0 =>
    rw [h0] at h
    simp only [] at h
    cases h1 : read_u8 m (u32add a 1) with
    | error f1 =>
      rw [h1] at h
      simp only [] at h
      injection h with h
      subst h
      exact ⟨u32add a 1, read_u8_error_shape h1⟩
    | ok b1 =>
      rw [h1] at h
      simp only [] at h
      cases h2 : read_u8 m (u32add a 2) with
      | error f2 =>
        rw [h2] at h
        simp only [] at h
        injection h with h
        subst h
        exact ⟨u32add a 2, read_u8_error_shape h2⟩
      | ok b2 =>
        rw [h2] at h
        simp only [] at h
        cases h3 : read_u8 m (u32add a 3) with
        | error f3 =>
          rw [h3] at h
          simp only [] at h
          injection h with h
          subst h
          exact ⟨u32add a 3, read_u8_error_shape h3⟩
        | ok b3 =>
          rw [h3] at h
          simp only [] at h
          exact absurd h (by simp)

theorem fwdCopyLoop_error_shape {ptr d size : Nat} {m : Mem} {f : Fault}
    (h : fwdCopyLoop ptr d 0 size m = .error f) : ∃ x, f = .badAccess x := by
  rw [fwdCopyLoop_eq_copyIndices] at h
  obtain ⟨i, hi, a, hf, _, _⟩ := copyIndices_error_sound ptr d _ m f h
  exact ⟨a, hf⟩

/-- A heap that tracks nothing. -/
def heapEmpty : Heap := fun _ => none

/-- Claim C9: guest-memory access faults are propagated unchanged.  For
`block_move_data`, any error result is exactly a bad-access fault at an
unmapped address the traversal touches, and whenever some touched address
is unmapped the call returns an error (never a masked success or a status
code).  For `ptr_and_hand`, an untracked handle propagates the heap's
fault unchanged, and every error result is either that fault or a
bad-access fault — never a converted guest-visible status code. -/
theorem access_faults_propagate :
    (∀ (m : Mem) (src dest len : Nat) (f : Fault),
      block_move_data m src dest len = .error f →
      ∃ i, i < len ∧ ∃ a, f = .badAccess a ∧ m a = none ∧
        (a = u32add src i ∨ a = u32add dest i)) ∧
    (∀ (m : Mem) (src dest len : Nat),
      src ≠ dest →
      (∃ i, i < len ∧ (m (u32add src i) = none ∨ m (u32add dest i) = none)) →
      ∃ f, block_move_data m src dest len = .error f) ∧
    (∀ (place : Heap → Nat → Nat → Option Nat) (heap : Heap) (m : Mem)
        (ptr handle size : Nat),
      heap handle = none →
      ptr_and_hand place heap m ptr handle size = .error (.invalidHandle handle)) ∧
    (∀ (place : Heap → Nat → Nat → Option Nat) (heap : Heap) (m : Mem)
        (ptr handle size : Nat) (f : Fault),
      ptr_and_hand place heap m ptr handle size = .error f →
      (f = .invalidHandle handle ∧ heap handle = none) ∨ ∃ a, f = .badAccess a) := by
  refine ⟨?_, ?_, ?_, ?_⟩
  · intro m src dest len f h
    rcases Nat.lt_trichotomy src dest with hlt | heq | hgt
    · rw [block_move_data_ascending hlt] at h
      obtain ⟨i, hi, a, hf, hnone, hor⟩ := copyIndices_error_sound src dest _ m f h
      exact ⟨i, List.mem_range.mp hi, a, hf, hnone, hor⟩
    · rw [block_move_data, if_neg (by omega), if_neg (by omega)] at h
      exact absurd h (by simp)
    · rw [block_move_data_descending hgt] at h
      obtain ⟨i, hi, a, hf, hnone, hor⟩ := copyIndices_error_sound src dest _ m f h
      rw [List.mem_reverse] at hi
      exact ⟨i, List.mem_range.mp hi, a, hf, hnone, hor⟩
  · intro m src dest len hne hex
    obtain ⟨i, hi, hun⟩ := hex
    rcases Nat.lt_or_ge src dest with hlt | hge
    · rw [block_move_data_ascending hlt]
      exact copyIndices_error_complete src dest _ m ⟨i, List.mem_range.mpr hi, hun⟩
    · have hgt : dest < src := by omega
      rw [block_move_data_descending hgt]
      exact copyIndices_error_complete src dest _ m
        ⟨i, List.mem_reverse.mpr (List.mem_range.mpr hi), hun⟩
  · intro place heap m ptr handle size hnone
    rw [ptr_and_hand, Heap.get_handle_size, hnone]
  · intro place heap m ptr handle size f h
    rw [ptr_and_hand] at h
    cases hh : heap handle with
    | none =>
      rw [Heap.get_handle_size, hh] at h
      simp only [] at h
      injection h with h
      exact Or.inl ⟨h.symm, rfl⟩
    | some b =>
      rw [Heap.get_handle_size, hh] at h
      simp only [] at h
      rw [Heap.set_handle_size, hh] at h
      simp only [] at h
      cases hpl : place heap handle (u32add b.size size) with
      | none =>
        rw [hpl] at h
        simp only [] at h
        exact absurd h (by simp)
      | some nb =>
        rw [hpl] at h
        simp only [] at h
        cases hr : read_u32 (write_u32_cell
            (memCopy m b.base nb (min b.size (u32add b.size size))) handle nb) handle with
        | error fr =>
          rw [hr] at h
          simp only [] at h
          injection h with h
          subst h
          exact Or.inr (read_u32_error_shape hr)
        | ok cellVal =>
          rw [hr] at h
          simp only [] at h
          cases hc : fwdCopyLoop ptr (u32add cellVal b.size) 0 size (write_u32_cell
              (memCopy m b.base nb (min b.size (u32add b.size size))) handle nb) with
          | error fc =>
            rw [hc] at h
            simp only [] at h
            injection h with h
            subst h
            exact Or.inr (fwdCopyLoop_error_shape hc)
          | ok m2 =>
            rw [hc] at h
            simp only [] at h
            exact absurd h (by simp)

/-- Witness for claim C9: `PtrAndHand` on an untracked handle propagates
the heap's invalid-handle fault unchanged. -/
theorem access_faults_propagate_witness :
    ptr_and_hand placeFail heapEmpty memBytes 1 2 3 =
      .error (.invalidHandle 2) :=
  access_faults_propagate.2.2.1 placeFail heapEmpty memBytes 1 2 3 rfl

/-- Specification-level variant of `block_move_data` in which every address
computation is an exact natural-number addition (no 32-bit reduction):
the refinement target for the no-overflow precondition of claim C10. -/
def blockMoveDataNoOverflow (m : Mem) (src dest len : Nat) : Except Fault Mem :=
  if src < dest then copyIndicesP src dest (List.range len) m
  else if src > dest then copyIndicesP src dest ((List.range len).reverse) m
  else .ok m

/-- Claim C10: the address and size computations of `block_move_data` and
`ptr_and_hand` are unchecked 32-bit additions.  Under the precondition that
`src + length` and `dest + length` stay below 2^32 no addition is reduced,
and `block_move_data` coincides with the exact-arithmetic variant; likewise
`current_size + size` is exact when below 2^32.  Outside the precondition
the addition wraps modulo 2^32 — `u32add (2^32 - 1) 1 = 0` — and the call
still executes against the wrapped addresses instead of being rejected or
reported as a guest fault (the concrete out-of-range copy returns `ok`). -/
theorem unchecked_u32_arithmetic :
    (∀ (m : Mem) (src dest len : Nat), src + len < U32MOD → dest + len < U32MOD →
      block_move_data m src dest len = blockMoveDataNoOverflow m src dest len) ∧
    (∀ n s : Nat, n + s < U32MOD → u32add n s = n + s) ∧
    u32add 4294967295 1 = 0 ∧
    (∃ m', block_move_data memBytes 4294967295 0 2 = .ok m') := by
  refine ⟨?_, ?_, by decide, ?_⟩
  · intro m src dest len hs hd
    rcases Nat.lt_trichotomy src dest with hlt | heq | hgt
    · rw [block_move_data_ascending hlt, blockMoveDataNoOverflow, if_pos hlt]
      exact copyIndices_eq_copyIndicesP src dest _ m
        (fun i hi => by
          have := List.mem_range.mp hi
          exact ⟨by omega, by omega⟩)
    · subst heq
      rw [block_move_data, if_neg (by omega), if_neg (by omega),
        blockMoveDataNoOverflow, if_neg (by omega), if_neg (by omega)]
    · rw [block_move_data_descending hgt, blockMoveDataNoOverflow,
        if_neg (by omega), if_pos hgt]
      exact copyIndices_eq_copyIndicesP src dest _ m
        (fun i hi => by
          have := List.mem_range.mp (List.mem_reverse.mp hi)
          exact ⟨by omega, by omega⟩)
  · intro n s h
    rw [u32add]
    exact Nat.mod_eq_of_lt h
  · obtain ⟨m', hm'⟩ := copyIndices_ok_of_mapped 4294967295 0
      ((List.range 2).reverse) memBytes
      (fun i _ => ⟨by simp [memBytes], by simp [memBytes]⟩)
    exact ⟨m', by rw [block_move_data_descending (by omega)]; exact hm'⟩

/-- Witness for claim C10: an in-bounds copy coincides with the
exact-arithmetic variant at concrete arguments. -/
theorem unchecked_u32_arithmetic_witness :
    block_move_data memBytes 0 5 3 = blockMoveDataNoOverflow memBytes 0 5 3 :=
  unchecked_u32_arithmetic.1 memBytes 0 5 3 (by decide) (by decide)
